import Mathlib

/-!
# Verification of the `distr` distributed-lock repository

Shallow embedding of `src/modules/Server/Lock/distributedLock.py` and
`src/modules/Server/database.py`, together with proofs about the claims of
the specification.

Python dictionaries keyed by integer peer ids are embedded as association
lists in insertion order (`Dict`), with lookup, insert-or-update and delete
mirroring Python dict semantics.  Fallible code (a `KeyError`, a raised
`ValueError` from `list.index`, a potentially non-terminating loop) is
embedded with `Option`: `none` marks an execution on which the source
raises or does not return.  Remote sends that may fail with a transport
error are driven by an explicit oracle `sendOk`; operations that send also
return the trace of attempted sends as `(receiver, clock at send)` pairs.
-/

namespace Distr

/-- Python dict keyed by peer id (`int`), kept in insertion order. -/
abbrev Dict := List (Nat × Nat)

/-- Lookup `d[k]` as an option: first binding of `k` (bindings are unique for
dicts built by the embedded operations). -/
def pyGet : Dict → Nat → Option Nat
  | [], _ => none
  | (k', v') :: rest, k => if k' = k then some v' else pyGet rest k

/-- Assignment `d[k] = v`: update the existing binding in place, else append. -/
def dictSet : Dict → Nat → Nat → Dict
  | [], k, v => [(k, v)]
  | (k', v') :: rest, k, v =>
    if k' = k then (k, v) :: rest else (k', v') :: dictSet rest k v

/-- Keys of a dict, in insertion order. -/
def dictKeys (d : Dict) : List Nat := d.map Prod.fst

/-- Python `dict(pairs)`: insert the pairs left to right. -/
def pyDict (l : List (Nat × Nat)) : Dict :=
  l.foldl (fun d kv => dictSet d kv.1 kv.2) []

/-- State constant `NO_TOKEN` of `distributedLock.py`. -/
def NO_TOKEN : Nat := 0
/-- State constant `TOKEN_PRESENT` of `distributedLock.py`. -/
def TOKEN_PRESENT : Nat := 1
/-- State constant `TOKEN_HELD` of `distributedLock.py`. -/
def TOKEN_HELD : Nat := 2

/-- The mutable fields of a `DistributedLock` instance: logical clock
`time`, the token map `token` (the constructor's `None` is embedded as the
empty dict), the request map `request`, and the `state` constant. -/
structure LockState where
  time : Nat
  token : Dict
  request : Dict
  state : Nat
  deriving Repr, DecidableEq

/-- The state built by `DistributedLock.__init__`. -/
def dlock_init : LockState :=
  { time := 0, token := [], request := [], state := NO_TOKEN }

/-- Embeds `DistributedLock._prepare`: `list(token.items())`, the identity on the
association-list embedding. -/
def prepare (token : Dict) : List (Nat × Nat) := token

/-- Embeds `DistributedLock._unprepare`: `dict(token)`. -/
def unprepare (token : List (Nat × Nat)) : Dict := pyDict token

/-- Embeds `DistributedLock.initialize` (spelt `initialise`), applied to the sorted key list `pids` of
the peer directory.  `min(self.peer_list.peers)` is the minimum of the
keys, computed by folding so that it does not rely on `pids` being sorted;
on an empty directory the source raises (`min(())`), embedded as the
identity, unreachable under the claims' non-empty hypothesis. -/
def initialise (owner : Nat) (pids : List Nat) (s : LockState) : LockState :=
  match pids with
  | [] => s
  | p :: rest =>
    let m := rest.foldl Nat.min p
    let st := if m = owner then TOKEN_PRESENT else s.state
    { s with state := st, token := pids.map (fun q => (q, 0)) }

/-- Python `list.index`: position of the first occurrence. -/
def idxOf : List Nat → Nat → Nat
  | [], _ => 0
  | p :: rest, k => if p = k then 0 else idxOf rest k + 1

/-- The candidate pids visited by the circular scans of `release` and
`destroy`: starting just after the position `i` of `self.owner.id` and
wrapping around, stopping before position `i` again, the loop visits
exactly the positions `i+1, …, len-1, 0, …, i-1`. -/
def candidates (owner : Nat) (pids : List Nat) : List Nat :=
  pids.drop (idxOf pids owner + 1) ++ pids.take (idxOf pids owner)

/-- The scan loop of `DistributedLock.release` over the remaining
candidate pids.  Returns `none` when the source raises (a `KeyError` on
`self.token[pid]`); otherwise the final state, the trace of attempted
`obtain_token` sends as `(pid, clock at send)` pairs, and the receiver
that accepted the token, if any.  On a transport failure the source
executes `token = tokencpy`, which rebinds a local variable, so
`self.token` keeps the timestamps written before the failed send. -/
def release_scan (owner : Nat) (sendOk : Nat → Bool) :
    List Nat → LockState → Option (LockState × List (Nat × Nat) × Option Nat)
  | [], s => some (s, [], none)
  | pid :: rest, s =>
    match pyGet s.request pid with
    | none => release_scan owner sendOk rest s
    | some rq =>
      match pyGet s.token pid with
      | none => none
      | some tk =>
        if rq > tk then
          let token1 := dictSet s.token owner s.time
          let time1 := s.time + 1
          let token2 := dictSet token1 pid time1
          if sendOk pid then
            some ({ s with token := token2, time := time1, state := NO_TOKEN },
                  [(pid, time1)], some pid)
          else
            (release_scan owner sendOk rest
              { s with token := token2, time := time1 }).map
              (fun r => (r.1, (pid, time1) :: r.2.1, r.2.2))
        else release_scan owner sendOk rest s

/-- Embeds `DistributedLock.release`, applied to the sorted key list `pids` of
the peer directory.  `none` embeds a raised exception: `pids.index`
raising `ValueError` when `owner ∉ pids`, or a `KeyError` in the scan. -/
def release (owner : Nat) (pids : List Nat) (sendOk : Nat → Bool)
    (s : LockState) : Option (LockState × List (Nat × Nat) × Option Nat) :=
  if s.state = NO_TOKEN then some (s, [], none)
  else if owner ∈ pids then
    release_scan owner sendOk (candidates owner pids)
      { s with state := TOKEN_PRESENT }
  else none

/-- The locked region of `DistributedLock.request_token` (lines 285-297):
clock update followed by the request-map update.  The source then calls
`self.release()` when `state == TOKEN_PRESENT`; that continuation is
modelled by composing with `release`, as in the system step relation. -/
def request_token (time pid : Nat) (s : LockState) : LockState :=
  let t1 := max time (s.time + 1)
  let req :=
    match pyGet s.request pid with
    | some r => dictSet s.request pid (max r t1)
    | none => dictSet s.request pid t1
  { s with time := t1, request := req }

/-- Embeds `DistributedLock.obtain_token`: store the deserialized token, become
`TOKEN_PRESENT`, update the clock.  `none` embeds the `KeyError` raised by
`self.token[self.owner.id]` when the payload lacks the owner's id. -/
def obtain_token (owner : Nat) (payload : List (Nat × Nat))
    (s : LockState) : Option LockState :=
  let token' := unprepare payload
  match pyGet token' owner with
  | none => none
  | some tk =>
    some { s with token := token', state := TOKEN_PRESENT,
                  time := max (s.time + 1) tk }

/-- The request-broadcast loop of `DistributedLock.acquire` run when
`state == NO_TOKEN`: for every pid other than the owner's, in sorted
order, the clock is incremented and `request_token(self.time, owner)` is
sent; a transport failure is swallowed, after the increment.  Returns the
final clock and the trace of sends as `(pid, clock at send)` pairs. -/
def acquire_requests (owner : Nat) : List Nat → Nat → Nat × List (Nat × Nat)
  | [], t => (t, [])
  | pid :: rest, t =>
    if pid = owner then acquire_requests owner rest t
    else ((acquire_requests owner rest (t + 1)).1,
          (pid, t + 1) :: (acquire_requests owner rest (t + 1)).2)

/-- The return of `DistributedLock.acquire`: when the token is already
resident or held the state becomes `TOKEN_HELD` at once; when
`state == NO_TOKEN` the call broadcasts requests (`acquire_requests`) and
then blocks on the wait loop until another peer's `obtain_token` arrives,
embedded as `none` (the completion `TOKEN_PRESENT → TOKEN_HELD` is a
separate step of the system relation). -/
def acquire (s : LockState) : Option LockState :=
  if s.state = NO_TOKEN then none
  else some { s with state := TOKEN_HELD }

/-- The hand-off loop of `DistributedLock.destroy`: starting from
position `cur`, advance circularly and offer `obtain_token` to each
successive pid (the owner's own position included, as in the source)
while `state == TOKEN_PRESENT`.  `sendOk` is indexed by the remaining
fuel, so each attempt may fail independently; `none` embeds the source
looping without returning.  The loop never changes `time` or `token`, so
each attempted send carries the entry clock. -/
def destroy_loop (pids : List Nat) (sendOk : Nat → Bool) :
    Nat → Nat → LockState → Option (LockState × List (Nat × Nat))
  | 0, _, s => if s.state = TOKEN_PRESENT then none else some (s, [])
  | fuel + 1, cur, s =>
    if s.state = TOKEN_PRESENT then
      (destroy_loop pids sendOk fuel
          (if cur + 1 = pids.length then 0 else cur + 1)
          (if sendOk fuel then { s with state := NO_TOKEN } else s)).map
        (fun r =>
          (r.1, (pids.getD (if cur + 1 = pids.length then 0 else cur + 1) 0,
            s.time) :: r.2))
    else some (s, [])

/-- Embeds `DistributedLock.destroy`, applied to the sorted key list `pids`. -/
def destroy (owner : Nat) (pids : List Nat) (sendOkR sendOkD : Nat → Bool)
    (fuel : Nat) (s : LockState) : Option (LockState × List (Nat × Nat)) :=
  match (if s.state = TOKEN_HELD then release owner pids sendOkR s
         else some (s, [], none)) with
  | none => none
  | some (s1, tr1, _) =>
    if pids.length = 1 then some (s1, tr1)
    else if owner ∈ pids then
      (destroy_loop pids sendOkD fuel (idxOf pids owner) s1).map
        (fun r => (r.1, tr1 ++ r.2))
    else none

/-! ## The peer system as a transition relation

Claim C1 is about every reachable configuration of a system of peers, so
the per-peer operations above are lifted to an interleaving transition
relation over the vector of peer lock states.  The peer directory is
fixed to the common sorted key list `pids` (membership churn does not
move the token, and `register_peer` / `unregister_peer` never touch
`state`).

The model keeps the source's thread structure where it matters for the
`state` field.  All handlers and the bodies of `release` and `destroy`
run under the peer's monitor (`peer_list.lock`), so each monitor-guarded
region is one step — except that `release` and `destroy` hold the
monitor ACROSS the blocking `obtain_token` call (lines 223-280 and
121-149) and assign `state = NO_TOKEN` only after the reply (lines 269
and 144).  That hand-off window is made explicit: a `sending` flag per
peer records that its release/destroy thread is blocked in the RPC with
the monitor held; the send (with the receiver's handler) and the
post-reply assignment are two separate steps, and while the flag is set
no other monitor-guarded step runs at that peer.  `acquire`'s state
test, busy-wait and `state = TOKEN_HELD` assignment (lines 178, 209-213)
take no lock at all in the source, so the corresponding step is NOT
guarded by the flag and may interleave into the window.  A transport
failure means the message was not delivered. -/

/-- A configuration of the peer system: each peer's lock state, and
whether its release/destroy thread is blocked inside an `obtain_token`
call with the monitor held (the hand-off window). -/
structure Sys where
  locks : Nat → LockState
  sending : Nat → Bool

/-- Replace peer `p`'s lock state. -/
def updLocks (σ : Sys) (p : Nat) (lp : LockState) : Sys :=
  { σ with locks := fun r => if r = p then lp else σ.locks r }

/-- Set peer `p`'s hand-off-window flag. -/
def setSending (σ : Sys) (p : Nat) (b : Bool) : Sys :=
  { σ with sending := fun r => if r = p then b else σ.sending r }

/-- Set only the `state` field of a lock state. -/
def setState (l : LockState) (st : Nat) : LockState := { l with state := st }

/-- The configuration after every peer has run `__init__`, the directory
has been populated with the common key list `pids`, and every peer has
run `initialize`; no hand-off is in flight. -/
def initSys (pids : List Nat) : Sys :=
  { locks := fun p => initialise p pids dlock_init,
    sending := fun _ => false }

/-- One step of the peer system.  The constructors embed, in turn: a
delivered `request_token` broadcast iteration of `acquire` (sender clock
bump, receiver handler — both sides need their monitor), a lost one, the
lock-free tail of `acquire` (busy-wait exit and `state = TOKEN_HELD`,
lines 209-213: no monitor, so no `sending` guard), the successful send
of `release`'s scan together with the receiver's `obtain_token` handler
(the sender's `state = NO_TOKEN` has NOT yet run: its state field is
still `TOKEN_PRESENT` from line 227 and its flag is raised), one
successful `obtain_token` offer of `destroy`'s loop (likewise before
line 144; the self-offer `q = p` would deadlock on the non-reentrant
monitor, so `q ≠ p`), the post-reply `state = NO_TOKEN` assignment
closing either window (lines 269 / 144, an unconditional overwrite),
and a `release` whose scan hands off to nobody. -/
inductive Step (pids : List Nat) : Sys → Sys → Prop
  | reqSend (σ : Sys) (p q : Nat) (hp : p ∈ pids) (hq : q ∈ pids)
      (hne : p ≠ q) (hfp : σ.sending p = false) (hfq : σ.sending q = false) :
      Step pids σ
        (updLocks (updLocks σ p { σ.locks p with time := (σ.locks p).time + 1 })
          q (request_token ((σ.locks p).time + 1) p (σ.locks q)))
  | reqLost (σ : Sys) (p : Nat) (hp : p ∈ pids)
      (hfp : σ.sending p = false) :
      Step pids σ
        (updLocks σ p { σ.locks p with time := (σ.locks p).time + 1 })
  | acquireDone (σ : Sys) (p : Nat) (hp : p ∈ pids)
      (hs : (σ.locks p).state = TOKEN_PRESENT) :
      Step pids σ (updLocks σ p (setState (σ.locks p) TOKEN_HELD))
  | handoffSend (σ : Sys) (p q : Nat) (ps : LockState) (tr : List (Nat × Nat))
      (qs : LockState) (sendOk : Nat → Bool) (hp : p ∈ pids)
      (hfp : σ.sending p = false) (hfq : σ.sending q = false)
      (hr : release p pids sendOk (σ.locks p) = some (ps, tr, some q))
      (hq : obtain_token q (prepare ps.token) (σ.locks q) = some qs) :
      Step pids σ
        (setSending (updLocks (updLocks σ p { ps with state := TOKEN_PRESENT })
          q qs) p true)
  | destroySend (σ : Sys) (p q : Nat) (qs : LockState) (hp : p ∈ pids)
      (hq : q ∈ pids) (hne : q ≠ p) (hs : (σ.locks p).state = TOKEN_PRESENT)
      (hfp : σ.sending p = false) (hfq : σ.sending q = false)
      (ho : obtain_token q (prepare (σ.locks p).token) (σ.locks q) = some qs) :
      Step pids σ (setSending (updLocks σ q qs) p true)
  | handoffFinish (σ : Sys) (p : Nat) (hfp : σ.sending p = true) :
      Step pids σ
        (setSending (updLocks σ p (setState (σ.locks p) NO_TOKEN)) p false)
  | releaseKeep (σ : Sys) (p : Nat) (ps : LockState)
      (tr : List (Nat × Nat)) (sendOk : Nat → Bool) (hp : p ∈ pids)
      (hfp : σ.sending p = false)
      (hr : release p pids sendOk (σ.locks p) = some (ps, tr, none)) :
      Step pids σ (updLocks σ p ps)

/-- Configurations reachable from the freshly initialised system. -/
def Reachable (pids : List Nat) (σ : Sys) : Prop :=
  Relation.ReflTransGen (Step pids) (initSys pids) σ

/-! ## The record store (`database.py`) -/

namespace Database

/-- Parser state of the loading loop of `Database.__init__`: the records
collected so far, the record text accumulated from lines read so far
(`msg`), and the partial current line not yet terminated by a newline. -/
abbrev LoadSt := List (List Char) × List Char × List Char

/-- One character of the loading loop of `Database.__init__`: completing a
line equal to `%` appends the accumulated `msg` as a record, any other
completed line is appended to `msg`. -/
def loadStep (st : LoadSt) (c : Char) : LoadSt :=
  if c = '\n' then
    let line := st.2.2 ++ ['\n']
    if line = ['%', '\n'] then (st.1 ++ [st.2.1], [], [])
    else (st.1, st.2.1 ++ line, [])
  else (st.1, st.2.1, st.2.2 ++ [c])

/-- The loading loop of `Database.__init__` run from a given parser
state over the given file text. -/
def loadAux (st : LoadSt) (file : List Char) : LoadSt :=
  file.foldl loadStep st

/-- Embeds the constructor's parse of the database file: the list of
records, splitting on lines equal to `%`.  A trailing message not
terminated by a `%` line is dropped, as in the source, where the final
`msg` is never inserted. -/
def load (file : List Char) : List (List Char) :=
  (loadAux ([], [], []) file).1

/-- Embeds `Database.write`: append the fortune followed by `\n%\n` to
the file, and append the fortune itself to the in-memory list.  Returns
the new file text and the new in-memory list. -/
def write (file : List Char) (fortunes : List (List Char))
    (fortune : List Char) : List Char × List (List Char) :=
  (file ++ fortune ++ ['\n', '%', '\n'], fortunes ++ [fortune])

/-- Split a text into its complete (newline-terminated) lines, each kept
with its terminating newline, and the leftover partial line. -/
def splitNL : List Char → List (List Char) × List Char
  | [] => ([], [])
  | c :: rest =>
    if c = '\n' then
      let p := splitNL rest
      (['\n'] :: p.1, p.2)
    else
      match splitNL rest with
      | (l :: ls, left) => ((c :: l) :: ls, left)
      | ([], left) => ([], c :: left)

end Database

/-! ## Dictionary lemmas -/

theorem pyGet_dictSet_self (d : Dict) (k v : Nat) :
    pyGet (dictSet d k v) k = some v := by
  induction d with
  | nil => simp [dictSet, pyGet]
  | cons kv rest ih =>
    obtain ⟨k', v'⟩ := kv
    by_cases h : k' = k
    · subst h; simp [dictSet, pyGet]
    · simp [dictSet, pyGet, h, ih]

theorem pyGet_dictSet_ne (d : Dict) (k v k' : Nat) (h : k' ≠ k) :
    pyGet (dictSet d k v) k' = pyGet d k' := by
  have h' : k ≠ k' := Ne.symm h
  induction d with
  | nil => simp [dictSet, pyGet, h']
  | cons kv rest ih =>
    obtain ⟨k1, v1⟩ := kv
    by_cases h1 : k1 = k
    · subst h1; simp [dictSet, pyGet, h']
    · simp [dictSet, pyGet, h1, ih]

theorem dictSet_cons_ne (d : Dict) (k v k1 v1 : Nat) (h : k ≠ k1) :
    dictSet ((k, v) :: d) k1 v1 = (k, v) :: dictSet d k1 v1 := by
  simp [dictSet, h]

theorem foldl_dictSet_cons (l : List (Nat × Nat)) (d : Dict) (k v : Nat)
    (h : k ∉ l.map Prod.fst) :
    l.foldl (fun d kv => dictSet d kv.1 kv.2) ((k, v) :: d)
      = (k, v) :: l.foldl (fun d kv => dictSet d kv.1 kv.2) d := by
  induction l generalizing d with
  | nil => rfl
  | cons kv rest ih =>
    obtain ⟨k1, v1⟩ := kv
    simp only [List.map_cons, List.mem_cons, not_or] at h
    simp only [List.foldl_cons]
    rw [dictSet_cons_ne d k v k1 v1 h.1, ih _ h.2]

theorem pyDict_self (d : Dict) (h : (dictKeys d).Nodup) : pyDict d = d := by
  induction d with
  | nil => rfl
  | cons kv rest ih =>
    obtain ⟨k, v⟩ := kv
    simp only [dictKeys, List.map_cons, List.nodup_cons] at h
    show rest.foldl (fun d kv => dictSet d kv.1 kv.2) (dictSet [] k v) = _
    rw [show dictSet [] k v = (k, v) :: ([] : Dict) from rfl,
      foldl_dictSet_cons rest [] k v h.1]
    exact congrArg _ (ih h.2)

/-! ## C9: token serialization round trip -/

/-- **C9.**  For every token map with distinct keys — every map a Python
dict can hold — deserializing the wire form produced by `_prepare` via
`_unprepare` yields the original map. -/
theorem claim_token_serialization_roundtrip (token : Dict)
    (h : (dictKeys token).Nodup) : unprepare (prepare token) = token :=
  pyDict_self token h

/-- Witness for C9 at the concrete token map `{3: 4, 1: 2}`. -/
theorem claim_token_serialization_roundtrip_witness :
    unprepare (prepare [(3, 4), (1, 2)]) = [(3, 4), (1, 2)] :=
  claim_token_serialization_roundtrip [(3, 4), (1, 2)] (by decide)

/-! ## C3: bootstrap rule of `initialize` -/

theorem foldl_min_mem (rest : List Nat) (p : Nat) :
    rest.foldl Nat.min p ∈ p :: rest := by
  induction rest generalizing p with
  | nil => simp
  | cons a l ih =>
    simp only [List.foldl_cons]
    rcases List.mem_cons.mp (ih (Nat.min p a)) with h1 | h1
    · have hm : Nat.min p a = p ∨ Nat.min p a = a := by
        rcases Nat.le_total p a with hle | hle
        · exact Or.inl (Nat.min_eq_left hle)
        · exact Or.inr (Nat.min_eq_right hle)
      rcases hm with hm | hm <;> rw [h1, hm]
      · exact List.mem_cons_self _ _
      · exact List.mem_cons_of_mem _ (List.mem_cons_self _ _)
    · exact List.mem_cons_of_mem _ (List.mem_cons_of_mem _ h1)

theorem foldl_min_le (rest : List Nat) (p : Nat) :
    ∀ q ∈ p :: rest, rest.foldl Nat.min p ≤ q := by
  induction rest generalizing p with
  | nil => intro q hq; simp only [List.foldl_nil]; simp at hq; omega
  | cons a l ih =>
    intro q hq
    simp only [List.foldl_cons]
    have hmin : l.foldl Nat.min (Nat.min p a) ≤ Nat.min p a :=
      ih (Nat.min p a) _ (List.mem_cons_self _ _)
    rcases List.mem_cons.mp hq with rfl | hq1
    · exact le_trans hmin (Nat.min_le_left _ _)
    · rcases List.mem_cons.mp hq1 with rfl | hq2
      · exact le_trans hmin (Nat.min_le_right _ _)
      · exact ih (Nat.min p a) q (List.mem_cons_of_mem _ hq2)

theorem foldl_min_eq_iff (rest : List Nat) (p owner : Nat) :
    rest.foldl Nat.min p = owner
      ↔ owner ∈ p :: rest ∧ ∀ q ∈ p :: rest, owner ≤ q := by
  constructor
  · rintro rfl; exact ⟨foldl_min_mem rest p, foldl_min_le rest p⟩
  · rintro ⟨h1, h2⟩
    exact Nat.le_antisymm (foldl_min_le rest p owner h1)
      (h2 _ (foldl_min_mem rest p))

theorem initialise_state_eq (owner p : Nat) (rest : List Nat) (s : LockState) :
    (initialise owner (p :: rest) s).state
      = if rest.foldl Nat.min p = owner then TOKEN_PRESENT else s.state := rfl

/-- **C3.**  On a non-empty directory, `initialize` run on the
freshly-constructed lock makes the token map `{pid → 0}` over the
directory's sorted keys, and the state is `TOKEN_PRESENT` exactly when
the owner's id is the minimum key; otherwise it remains `NO_TOKEN`. -/
theorem claim_initialise_bootstrap (owner p : Nat) (rest : List Nat) :
    (initialise owner (p :: rest) dlock_init).token
        = (p :: rest).map (fun q => (q, 0))
    ∧ ((initialise owner (p :: rest) dlock_init).state = TOKEN_PRESENT
        ↔ owner ∈ p :: rest ∧ ∀ q ∈ p :: rest, owner ≤ q)
    ∧ ((initialise owner (p :: rest) dlock_init).state = TOKEN_PRESENT
        ∨ (initialise owner (p :: rest) dlock_init).state = NO_TOKEN) := by
  have hst := initialise_state_eq owner p rest dlock_init
  by_cases hmin : rest.foldl Nat.min p = owner
  · rw [hst, if_pos hmin]
    exact ⟨rfl,
      ⟨fun _ => (foldl_min_eq_iff rest p owner).mp hmin, fun _ => rfl⟩,
      Or.inl rfl⟩
  · rw [hst, if_neg hmin]
    refine ⟨rfl, ⟨fun h => ?_, fun h => absurd ((foldl_min_eq_iff rest p owner).mpr h) hmin⟩,
      Or.inr rfl⟩
    · exact absurd h (by simp [dlock_init, NO_TOKEN, TOKEN_PRESENT])

/-! ## C5: clock update of `request_token` -/

/-- **C5 (amended).**  The `request_token` handler sets the clock to
`max(t, clock + 1)` — not `max(clock, t) + 1` — and then sets
`request[pid]` to the maximum of its previous value (0 when absent) and
the updated clock. -/
theorem claim_request_token_clock (time pid : Nat) (s : LockState) :
    (request_token time pid s).time = max time (s.time + 1)
    ∧ pyGet (request_token time pid s).request pid
        = some (max ((pyGet s.request pid).getD 0) (max time (s.time + 1))) := by
  refine ⟨rfl, ?_⟩
  cases h : pyGet s.request pid with
  | none => simp [request_token, h, pyGet_dictSet_self, Nat.zero_max]
  | some r => simp [request_token, h, pyGet_dictSet_self]

/-- **C5 counterexample.**  At prior clock 0 and incoming timestamp 5 the
handler sets the clock to 5, while the claim's `max(c, t) + 1` is 6. -/
theorem claim_request_token_clock_cex :
    (request_token 5 7 dlock_init).time = 5 ∧ (5 : Nat) ≠ max 0 5 + 1 := by
  decide

/-! ## C10: record-store round trip -/

namespace Database

theorem splitNL_no_newline (cur : List Char) (h : '\n' ∉ cur) :
    splitNL cur = ([], cur) := by
  induction cur with
  | nil => rfl
  | cons c rest ih =>
    simp only [List.mem_cons, not_or] at h
    rw [splitNL, if_neg (Ne.symm h.1), ih h.2]

theorem splitNL_append_newline (cur rest : List Char) (h : '\n' ∉ cur) :
    splitNL (cur ++ '\n' :: rest)
      = ((cur ++ ['\n']) :: (splitNL rest).1, (splitNL rest).2) := by
  induction cur with
  | nil => simp only [List.nil_append]; rw [splitNL, if_pos rfl]
  | cons c cur' ih =>
    simp only [List.mem_cons, not_or] at h
    simp only [List.cons_append]
    rw [splitNL, if_neg (Ne.symm h.1), ih h.2]

theorem splitNL_reconstruct (t : List Char) :
    ((splitNL t).1).flatten ++ (splitNL t).2 = t := by
  induction t with
  | nil => rfl
  | cons c rest ih =>
    by_cases hc : c = '\n'
    · subst hc
      rw [splitNL, if_pos rfl]
      simpa using ih
    · rw [splitNL, if_neg hc]
      rcases heq : splitNL rest with ⟨ls, left⟩
      cases ls with
      | nil =>
        simp only [heq] at ih
        simpa using ih
      | cons l ls' =>
        simp only [heq] at ih
        simpa using ih

theorem splitNL_trailing_newline (t : List Char) :
    (splitNL (t ++ ['\n'])).2 = [] ∧ (splitNL (t ++ ['\n'])).1 ≠ [] := by
  induction t with
  | nil => exact ⟨by decide, by decide⟩
  | cons c t' ih =>
    by_cases hc : c = '\n'
    · subst hc
      simp only [List.cons_append]
      rw [splitNL, if_pos rfl]
      exact ⟨ih.1, by simp⟩
    · simp only [List.cons_append]
      rw [splitNL, if_neg hc]
      rcases heq : splitNL (t' ++ ['\n']) with ⟨ls, left⟩
      simp only [heq] at ih
      cases ls with
      | nil => exact absurd rfl ih.2
      | cons l ls' => exact ⟨ih.1, by simp⟩

theorem loadAux_append (st : LoadSt) (a b : List Char) :
    loadAux st (a ++ b) = loadAux (loadAux st a) b :=
  List.foldl_append _ _ _ _

theorem loadAux_no_sep (r : List Char) :
    ∀ (recs : List (List Char)) (msg cur : List Char), '\n' ∉ cur →
    (∀ l ∈ (splitNL (cur ++ r)).1, l ≠ ['%', '\n']) →
    loadAux (recs, msg, cur) r
      = (recs, msg ++ ((splitNL (cur ++ r)).1).flatten,
          (splitNL (cur ++ r)).2) := by
  induction r with
  | nil =>
    intro recs msg cur hcur _
    rw [show cur ++ [] = cur from List.append_nil cur,
      splitNL_no_newline cur hcur]
    simp [loadAux]
  | cons c rest ih =>
    intro recs msg cur hcur hsep
    by_cases hc : c = '\n'
    · subst hc
      rw [splitNL_append_newline cur rest hcur] at hsep ⊢
      have hline : cur ++ ['\n'] ≠ ['%', '\n'] :=
        hsep _ (List.mem_cons_self _ _)
      have hstep : loadStep (recs, msg, cur) '\n'
          = (recs, msg ++ (cur ++ ['\n']), []) := by
        simp [loadStep, hline]
      rw [show loadAux (recs, msg, cur) ('\n' :: rest)
          = loadAux (loadStep (recs, msg, cur) '\n') rest from rfl, hstep,
        ih recs (msg ++ (cur ++ ['\n'])) [] (by simp)
          (fun l hl => hsep l (List.mem_cons_of_mem _ (by simpa using hl)))]
      simp
    · have hstep : loadStep (recs, msg, cur) c = (recs, msg, cur ++ [c]) := by
        simp only [loadStep]
        rw [if_neg hc]
      have hcur' : '\n' ∉ cur ++ [c] := by
        simp only [List.mem_append, List.mem_singleton, not_or]
        exact ⟨hcur, fun hh => hc hh.symm⟩
      have happ : (cur ++ [c]) ++ rest = cur ++ c :: rest := by simp
      rw [show loadAux (recs, msg, cur) (c :: rest)
          = loadAux (loadStep (recs, msg, cur) c) rest from rfl, hstep,
        ih recs msg (cur ++ [c]) hcur' (by rw [happ]; exact hsep), happ]

end Database

/-- **C10 (amended).**  Appending a record `r` via `write` (which appends
`r` followed by a newline and a line equal to `%`) and re-loading the file
yields the previously loaded records with `r ++ "\n"` — not `r` itself —
appended as the last element: the reloaded record gains a trailing
newline.  The in-memory list does get `r` itself.  Hypotheses: the
previous file parses completely into records (empty pending message and
line), and no line of the written text `r ++ "\n"` equals the separator
line `%`. -/
theorem claim_database_roundtrip (file r : List Char)
    (fortunes recs : List (List Char))
    (h1 : Database.loadAux ([], [], []) file = (recs, [], []))
    (h2 : ∀ l ∈ (Database.splitNL (r ++ ['\n'])).1, l ≠ ['%', '\n']) :
    Database.load (Database.write file fortunes r).1 = recs ++ [r ++ ['\n']]
    ∧ (Database.write file fortunes r).2 = fortunes ++ [r] := by
  refine ⟨?_, rfl⟩
  have hsplit : (Database.write file fortunes r).1
      = file ++ ((r ++ ['\n']) ++ ['%', '\n']) := by
    simp [Database.write]
  rw [Database.load, hsplit, Database.loadAux_append, h1,
    Database.loadAux_append, Database.loadAux_no_sep (r ++ ['\n']) recs [] []
      (by simp) (by simpa using h2)]
  simp only [List.nil_append]
  rw [(Database.splitNL_trailing_newline r).1]
  have hflat : ((Database.splitNL (r ++ ['\n'])).1).flatten = r ++ ['\n'] := by
    have := Database.splitNL_reconstruct (r ++ ['\n'])
    rwa [(Database.splitNL_trailing_newline r).1, List.append_nil] at this
  rw [hflat]
  rfl

/-- Witness for C10 at a file holding one record `"a\n"` and the new
record `"x"`. -/
theorem claim_database_roundtrip_witness :
    Database.load
        (Database.write ['a', '\n', '%', '\n'] [['a', '\n']] ['x']).1
      = [['a', '\n']] ++ [['x'] ++ ['\n']]
    ∧ (Database.write ['a', '\n', '%', '\n'] [['a', '\n']] ['x']).2
      = [['a', '\n']] ++ [['x']] :=
  claim_database_roundtrip ['a', '\n', '%', '\n'] ['x'] [['a', '\n']]
    [['a', '\n']] (by decide) (by decide)

/-- **C10 counterexample.**  Writing the record `"x"` to an empty store
and re-loading yields `["x\n"]`, not `["x"]` as the claim states. -/
theorem claim_database_roundtrip_cex :
    Database.load (Database.write [] [] ['x']).1 = [['x', '\n']]
    ∧ Database.load (Database.write [] [] ['x']).1 ≠ [['x']] := by
  decide

/-! ## The `release` scan: C2, C4, C8 -/

/-- Decidable guard: the scan of `release` passes over this candidate
without attempting a send — it has no recorded request, or its request
timestamp does not exceed its token timestamp. -/
def skipB (s : LockState) (pid : Nat) : Bool :=
  match pyGet s.request pid, pyGet s.token pid with
  | none, _ => true
  | some _, none => false
  | some rq, some tk => rq ≤ tk

/-- Decidable hand-off guard of `release`:
`pid in self.request and self.request[pid] > self.token[pid]`. -/
def eligibleB (s : LockState) (pid : Nat) : Bool :=
  match pyGet s.request pid, pyGet s.token pid with
  | some rq, some tk => tk < rq
  | _, _ => false

theorem skipB_set_state (s : LockState) (st pid : Nat) :
    skipB { s with state := st } pid = skipB s pid := rfl

theorem release_scan_skip_front (owner : Nat) (sendOk : Nat → Bool)
    (l1 l2 : List Nat) (s : LockState) (h : ∀ q ∈ l1, skipB s q = true) :
    release_scan owner sendOk (l1 ++ l2) s = release_scan owner sendOk l2 s := by
  induction l1 with
  | nil => rfl
  | cons pid rest ih =>
    have hp := h pid (List.mem_cons_self _ _)
    have ih' := ih (fun q hq => h q (List.mem_cons_of_mem _ hq))
    unfold skipB at hp
    simp only [List.cons_append]
    rw [release_scan]
    cases hr : pyGet s.request pid with
    | none => simpa [hr] using ih'
    | some rq =>
      cases ht : pyGet s.token pid with
      | none => rw [hr, ht] at hp; exact absurd hp (by simp)
      | some tk =>
        rw [hr, ht] at hp
        have hle : rq ≤ tk := by simpa using hp
        simp only [hr, ht]
        rw [if_neg (by omega)]
        exact ih'

theorem release_scan_first_eligible (owner : Nat) (sendOk : Nat → Bool)
    (l1 : List Nat) (p : Nat) (l2 : List Nat) (s : LockState)
    (hskip : ∀ q ∈ l1, skipB s q = true) (hel : eligibleB s p = true)
    (hok : sendOk p = true) :
    release_scan owner sendOk (l1 ++ p :: l2) s
      = some ({ s with
            token := dictSet (dictSet s.token owner s.time) p (s.time + 1),
            time := s.time + 1, state := NO_TOKEN },
          [(p, s.time + 1)], some p) := by
  rw [release_scan_skip_front owner sendOk l1 (p :: l2) s hskip]
  unfold eligibleB at hel
  cases hr : pyGet s.request p with
  | none => rw [hr] at hel; exact absurd hel (by simp)
  | some rq =>
    cases ht : pyGet s.token p with
    | none => rw [hr, ht] at hel; exact absurd hel (by simp)
    | some tk =>
      rw [hr, ht] at hel
      have hlt : tk < rq := by simpa using hel
      rw [release_scan]
      simp only [hr, ht]
      rw [if_pos (by omega), if_pos hok]

theorem release_scan_no_success (owner : Nat) (sendOk : Nat → Bool)
    (l : List Nat) :
    ∀ s : LockState, l.Nodup → owner ∉ l →
    (∀ q ∈ l, pyGet s.request q ≠ none → pyGet s.token q ≠ none) →
    (∀ q ∈ l, skipB s q = true ∨ sendOk q = false) →
    ∃ s' tr, release_scan owner sendOk l s = some (s', tr, none)
      ∧ s'.state = s.state ∧ s'.request = s.request := by
  induction l with
  | nil => intro s _ _ _ _; exact ⟨s, [], rfl, rfl, rfl⟩
  | cons pid rest ih =>
    intro s hnd howner htok hsk
    simp only [List.nodup_cons] at hnd
    simp only [List.mem_cons, not_or] at howner
    cases hr : pyGet s.request pid with
    | none =>
      obtain ⟨s', tr, h1, h2, h3⟩ := ih s hnd.2 howner.2
        (fun q hq => htok q (List.mem_cons_of_mem _ hq))
        (fun q hq => hsk q (List.mem_cons_of_mem _ hq))
      exact ⟨s', tr, by rw [release_scan]; simpa [hr] using h1, h2, h3⟩
    | some rq =>
      cases ht : pyGet s.token pid with
      | none =>
        exact absurd (htok pid (List.mem_cons_self _ _) (by simp [hr])) (by simp [ht])
      | some tk =>
        by_cases hlt : tk < rq
        · -- an attempt is made; the send must fail
          have hfail : sendOk pid = false := by
            rcases hsk pid (List.mem_cons_self _ _) with h | h
            · unfold skipB at h; rw [hr, ht] at h
              exact absurd (by simpa using h) (by omega)
            · exact h
          set s1 : LockState :=
            { s with token := dictSet (dictSet s.token owner s.time) pid (s.time + 1),
                     time := s.time + 1 } with hs1
          have hpres : ∀ q ∈ rest, pyGet s1.token q = pyGet s.token q := by
            intro q hq
            have hq1 : q ≠ pid := fun hh => hnd.1 (hh ▸ hq)
            have hq2 : q ≠ owner := fun hh => howner.2 (hh ▸ hq)
            rw [hs1]
            simp only
            rw [pyGet_dictSet_ne _ _ _ _ hq1, pyGet_dictSet_ne _ _ _ _ hq2]
          have hreq1 : s1.request = s.request := rfl
          obtain ⟨s', tr, h1, h2, h3⟩ := ih s1 hnd.2 howner.2
            (fun q hq hh => by
              rw [hpres q hq]
              exact htok q (List.mem_cons_of_mem _ hq) (by rwa [hreq1] at hh))
            (fun q hq => by
              have : skipB s1 q = skipB s q := by
                unfold skipB; rw [hpres q hq, hreq1]
              rw [this]
              exact hsk q (List.mem_cons_of_mem _ hq))
          refine ⟨s', (pid, s.time + 1) :: tr, ?_, by rw [h2], by rw [h3]⟩
          rw [release_scan]
          simp only [hr, ht]
          rw [if_pos (by omega), if_neg (by simp [hfail]), ← hs1, h1]
          rfl
        · obtain ⟨s', tr, h1, h2, h3⟩ := ih s hnd.2 howner.2
            (fun q hq => htok q (List.mem_cons_of_mem _ hq))
            (fun q hq => hsk q (List.mem_cons_of_mem _ hq))
          refine ⟨s', tr, ?_, h2, h3⟩
          rw [release_scan]
          simp only [hr, ht]
          rw [if_neg (by omega)]
          exact h1

theorem candidates_not_owner (owner : Nat) (pids : List Nat)
    (hnd : pids.Nodup) (hown : owner ∈ pids) :
    owner ∉ candidates owner pids := by
  induction pids with
  | nil => simp at hown
  | cons p rest ih =>
    simp only [List.nodup_cons] at hnd
    by_cases hp : p = owner
    · subst hp
      unfold candidates idxOf
      rw [if_pos rfl]
      simpa using hnd.1
    · have hown' : owner ∈ rest := by
        rcases List.mem_cons.mp hown with h | h
        · exact absurd h.symm hp
        · exact h
      have ihr := ih hnd.2 hown'
      unfold candidates at ihr
      unfold candidates idxOf
      rw [if_neg hp]
      simp only [List.drop_succ_cons, List.take_succ_cons]
      intro hmem
      rcases List.mem_append.mp hmem with h | h
      · exact ihr (List.mem_append.mpr (Or.inl h))
      · rcases List.mem_cons.mp h with h | h
        · exact hp h.symm
        · exact ihr (List.mem_append.mpr (Or.inr h))

theorem candidates_nodup (owner : Nat) (pids : List Nat) (hnd : pids.Nodup) :
    (candidates owner pids).Nodup := by
  have h2 : List.Sublist (pids.drop (idxOf pids owner + 1))
      (pids.drop (idxOf pids owner)) := by
    have h1 := List.drop_sublist 1 (pids.drop (idxOf pids owner))
    rwa [List.drop_drop] at h1
  have h3 := h2.append_left (pids.take (idxOf pids owner))
  rw [List.take_append_drop] at h3
  exact (List.perm_append_comm.nodup_iff).mp (hnd.sublist h3)

/-- **C4.**  When `release` runs on a token-owning state: if the first
candidate `p` of the circular scan not passed over is eligible
(`request[p] > token[p]`) and the send to it succeeds, then
`token[owner]` is set to the current clock, the clock increments,
`token[p]` is set to the new clock, the state becomes `NO_TOKEN` and the
scan stops having sent only to `p`; and if every candidate is passed over
or its send fails, the scan ends with the token still resident
(`state = TOKEN_PRESENT`) and the request map untouched. -/
theorem claim_release_handoff (owner : Nat) (pids : List Nat)
    (sendOk : Nat → Bool) (s : LockState) (hs : s.state ≠ NO_TOKEN)
    (hown : owner ∈ pids) (hnd : pids.Nodup) :
    (∀ l1 p l2, candidates owner pids = l1 ++ p :: l2 →
        (∀ q ∈ l1, skipB s q = true) → eligibleB s p = true →
        sendOk p = true →
        release owner pids sendOk s
          = some ({ s with
                token := dictSet (dictSet s.token owner s.time) p (s.time + 1),
                time := s.time + 1, state := NO_TOKEN },
              [(p, s.time + 1)], some p))
    ∧ ((∀ q ∈ candidates owner pids,
            pyGet s.request q ≠ none → pyGet s.token q ≠ none) →
        (∀ q ∈ candidates owner pids, skipB s q = true ∨ sendOk q = false) →
        ∃ s' tr, release owner pids sendOk s = some (s', tr, none)
          ∧ s'.state = TOKEN_PRESENT ∧ s'.request = s.request) := by
  have hrel : release owner pids sendOk s
      = release_scan owner sendOk (candidates owner pids)
          { s with state := TOKEN_PRESENT } := by
    unfold release
    rw [if_neg hs, if_pos hown]
  constructor
  · intro l1 p l2 hcand hskip hel hok
    rw [hrel, hcand]
    exact release_scan_first_eligible owner sendOk l1 p l2
      { s with state := TOKEN_PRESENT } hskip hel hok
  · intro htok hsk
    obtain ⟨s', tr, h1, h2, h3⟩ :=
      release_scan_no_success owner sendOk (candidates owner pids)
        { s with state := TOKEN_PRESENT }
        (candidates_nodup owner pids hnd)
        (candidates_not_owner owner pids hnd hown) htok hsk
    exact ⟨s', tr, by rw [hrel]; exact h1, h2, h3⟩

/-- Witness for C4: with peers `{1, 2, 3}`, holder 1 at clock 5, requests
recorded from 2 and 3, all sends succeeding, the token goes to peer 2 with
`token = {1: 5, 2: 6, 3: 0}`. -/
theorem claim_release_handoff_witness :
    release 1 [1, 2, 3] (fun _ => true)
        { time := 5, token := [(1, 0), (2, 0), (3, 0)],
          request := [(2, 7), (3, 7)], state := TOKEN_HELD }
      = some ({ time := 6, token := [(1, 5), (2, 6), (3, 0)],
                request := [(2, 7), (3, 7)], state := NO_TOKEN },
          [(2, 6)], some 2) :=
  (claim_release_handoff 1 [1, 2, 3] (fun _ => true)
      { time := 5, token := [(1, 0), (2, 0), (3, 0)],
        request := [(2, 7), (3, 7)], state := TOKEN_HELD }
      (by decide) (by decide) (by decide)).1
    [] 2 [3] rfl (by decide) (by decide) (by decide)

/-- **C8.**  From a state holding the token with no contention —
every circular-scan candidate is passed over because its recorded request
does not exceed its token entry — `acquire` moves to `TOKEN_HELD` and the
following `release` returns exactly the original state: resident token
and untouched request map. -/
theorem claim_acquire_release_roundtrip (owner : Nat) (pids : List Nat)
    (sendOk : Nat → Bool) (s : LockState) (hst : s.state = TOKEN_PRESENT)
    (hown : owner ∈ pids)
    (hnc : ∀ q ∈ candidates owner pids, skipB s q = true) :
    acquire s = some { s with state := TOKEN_HELD }
    ∧ release owner pids sendOk { s with state := TOKEN_HELD }
        = some (s, [], none) := by
  constructor
  · unfold acquire
    rw [if_neg (by rw [hst]; simp [TOKEN_PRESENT, NO_TOKEN])]
  · unfold release
    rw [if_neg (by simp [TOKEN_HELD, NO_TOKEN]), if_pos hown]
    have hback : ({ s with state := TOKEN_PRESENT } : LockState) = s := by
      cases s
      simp_all
    have hpre := release_scan_skip_front owner sendOk
      (candidates owner pids) [] s hnc
    rw [List.append_nil] at hpre
    show release_scan owner sendOk (candidates owner pids)
        { s with state := TOKEN_PRESENT } = some (s, [], none)
    rw [hback, hpre]
    rfl

/-- Witness for C8 with peers `{1, 2}`, holder 1, empty request map. -/
theorem claim_acquire_release_roundtrip_witness :
    acquire { time := 0, token := [(1, 0), (2, 0)], request := [],
              state := TOKEN_PRESENT }
      = some { time := 0, token := [(1, 0), (2, 0)], request := [],
               state := TOKEN_HELD }
    ∧ release 1 [1, 2] (fun _ => true)
        { time := 0, token := [(1, 0), (2, 0)], request := [],
          state := TOKEN_HELD }
      = some ({ time := 0, token := [(1, 0), (2, 0)], request := [],
                state := TOKEN_PRESENT }, [], none) :=
  claim_acquire_release_roundtrip 1 [1, 2] (fun _ => true)
    { time := 0, token := [(1, 0), (2, 0)], request := [],
      state := TOKEN_PRESENT } rfl (by decide) (by decide)

/-- **C2 (code bug).**  In `release`, after a hand-off attempt fails the
token map is NOT restored to the snapshot: the source assigns the
snapshot to a local variable (`token = tokencpy`) instead of
`self.token`.  With `token = {1: 0, 2: 0, 3: 0}`, clock 5, requests from
2 and 3 recorded, the send to 2 failing and the send to 3 succeeding, the
final map carries `token[2] = 6` — the timestamp written before the
failed send — where the pre-attempt value was `0`. -/
theorem claim_release_no_restore :
    (release 1 [1, 2, 3] (fun p => decide (p = 3))
        { time := 5, token := [(1, 0), (2, 0), (3, 0)],
          request := [(2, 7), (3, 7)], state := TOKEN_HELD }).map
        (fun r => (pyGet r.1.token 2, r.2.2))
      = some (some 6, some 3)
    ∧ pyGet [(1, 0), (2, 0), (3, 0)] 2 = some 0
    ∧ some 6 ≠ (some 0 : Option Nat) := by decide

/-! ## Result lemmas for `release`, `obtain_token` and `destroy` -/

theorem release_scan_facts (owner : Nat) (sendOk : Nat → Bool) (l : List Nat) :
    ∀ s s' tr rcv, release_scan owner sendOk l s = some (s', tr, rcv) →
      (rcv = none → s'.state = s.state)
      ∧ (∀ q, rcv = some q → s'.state = NO_TOKEN ∧ q ∈ l)
      ∧ s'.request = s.request
      ∧ s.time ≤ s'.time
      ∧ List.Chain' (· < ·) (s.time :: tr.map Prod.snd) := by
  induction l with
  | nil =>
    intro s s' tr rcv h
    rw [release_scan] at h
    simp only [Option.some.injEq, Prod.mk.injEq] at h
    obtain ⟨rfl, rfl, rfl⟩ := h
    exact ⟨fun _ => rfl, by simp, rfl, le_refl _, by simp⟩
  | cons pid rest ih =>
    intro s s' tr rcv h
    rw [release_scan] at h
    cases hr : pyGet s.request pid with
    | none =>
      rw [hr] at h
      obtain ⟨h1, h2, h3, h4, h5⟩ := ih s s' tr rcv h
      exact ⟨h1, fun q hq => ⟨(h2 q hq).1, List.mem_cons_of_mem _ (h2 q hq).2⟩,
        h3, h4, h5⟩
    | some rq =>
      rw [hr] at h
      cases ht : pyGet s.token pid with
      | none => simp only [ht] at h; simp at h
      | some tk =>
        simp only [ht] at h
        by_cases hlt : rq > tk
        · rw [if_pos hlt] at h
          by_cases hok : sendOk pid
          · rw [if_pos hok] at h
            simp only [Option.some.injEq, Prod.mk.injEq] at h
            obtain ⟨hs', htr, hrcv⟩ := h
            subst hs'; subst htr; subst hrcv
            refine ⟨by simp, fun q hq => ?_, rfl, by simp, by simp⟩
            obtain rfl : pid = q := by simpa using hq
            exact ⟨rfl, List.mem_cons_self _ _⟩
          · rw [if_neg hok] at h
            obtain ⟨⟨s2, tr2, rcv2⟩, hmap, heq⟩ := Option.map_eq_some'.mp h
            simp only [Prod.mk.injEq] at heq
            obtain ⟨hs', htr, hrcv⟩ := heq
            subst hs'; subst htr; subst hrcv
            obtain ⟨h1, h2, h3, h4, h5⟩ := ih _ s2 tr2 rcv2 hmap
            have h4' : s.time + 1 ≤ s2.time := h4
            have h5' : List.Chain' (· < ·)
                ((s.time + 1) :: tr2.map Prod.snd) := h5
            refine ⟨fun hn => (h1 hn).trans rfl,
              fun q hq => ⟨(h2 q hq).1, List.mem_cons_of_mem _ (h2 q hq).2⟩,
              h3, by omega, ?_⟩
            simp only [List.map_cons]
            exact List.chain'_cons.mpr ⟨by omega, h5'⟩
        · rw [if_neg hlt] at h
          obtain ⟨h1, h2, h3, h4, h5⟩ := ih s s' tr rcv h
          exact ⟨h1, fun q hq => ⟨(h2 q hq).1, List.mem_cons_of_mem _ (h2 q hq).2⟩,
            h3, h4, h5⟩

theorem release_facts (owner : Nat) (pids : List Nat) (sendOk : Nat → Bool)
    (s s' : LockState) (tr : List (Nat × Nat)) (rcv : Option Nat)
    (h : release owner pids sendOk s = some (s', tr, rcv)) :
    (rcv = none → (s' = s ∧ s.state = NO_TOKEN)
      ∨ (s'.state = TOKEN_PRESENT ∧ s.state ≠ NO_TOKEN))
    ∧ (∀ q, rcv = some q → s'.state = NO_TOKEN ∧ q ∈ candidates owner pids
        ∧ s.state ≠ NO_TOKEN ∧ owner ∈ pids)
    ∧ s'.request = s.request
    ∧ s.time ≤ s'.time
    ∧ List.Chain' (· < ·) (s.time :: tr.map Prod.snd) := by
  unfold release at h
  by_cases hst : s.state = NO_TOKEN
  · rw [if_pos hst] at h
    simp only [Option.some.injEq, Prod.mk.injEq] at h
    obtain ⟨rfl, rfl, rfl⟩ := h
    exact ⟨fun _ => Or.inl ⟨rfl, hst⟩, by simp, rfl, le_refl _, by simp⟩
  · rw [if_neg hst] at h
    by_cases hown : owner ∈ pids
    · rw [if_pos hown] at h
      obtain ⟨h1, h2, h3, h4, h5⟩ :=
        release_scan_facts owner sendOk (candidates owner pids) _ s' tr rcv h
      exact ⟨fun hn => Or.inr ⟨h1 hn, hst⟩,
        fun q hq => ⟨(h2 q hq).1, (h2 q hq).2, hst, hown⟩, h3, h4, h5⟩
    · rw [if_neg hown] at h; simp at h

theorem acquire_requests_clock (owner : Nat) (pids : List Nat) :
    ∀ t, t ≤ (acquire_requests owner pids t).1
      ∧ List.Chain' (· < ·) (t :: (acquire_requests owner pids t).2.map Prod.snd) := by
  induction pids with
  | nil => intro t; exact ⟨le_refl t, by simp [acquire_requests]⟩
  | cons pid rest ih =>
    intro t
    by_cases hp : pid = owner
    · rw [acquire_requests, if_pos hp]
      exact ih t
    · rw [acquire_requests, if_neg hp]
      refine ⟨le_trans (Nat.le_succ t) (ih (t + 1)).1, ?_⟩
      simp only [List.map_cons]
      exact List.chain'_cons.mpr ⟨by omega, (ih (t + 1)).2⟩

theorem request_token_state (time pid : Nat) (s : LockState) :
    (request_token time pid s).state = s.state := rfl

theorem obtain_token_facts (owner : Nat) (payload : List (Nat × Nat))
    (s s' : LockState) (h : obtain_token owner payload s = some s') :
    s'.state = TOKEN_PRESENT ∧ s'.token = unprepare payload
      ∧ s'.request = s.request ∧ s.time ≤ s'.time := by
  unfold obtain_token at h
  cases hg : pyGet (unprepare payload) owner with
  | none => simp [hg] at h
  | some tk =>
    simp only [hg, Option.some.injEq] at h
    subst h
    exact ⟨rfl, rfl, rfl, le_trans (Nat.le_succ _) (Nat.le_max_left _ _)⟩

theorem destroy_loop_facts (pids : List Nat) (sendOk : Nat → Bool) :
    ∀ fuel cur s s' tr, destroy_loop pids sendOk fuel cur s = some (s', tr) →
      (s'.state = NO_TOKEN ∨ (s'.state = s.state ∧ s.state ≠ TOKEN_PRESENT))
      ∧ s'.time = s.time ∧ s'.token = s.token ∧ s'.request = s.request
      ∧ ∀ e ∈ tr, e.2 = s.time := by
  intro fuel
  induction fuel with
  | zero =>
    intro cur s s' tr h
    rw [destroy_loop] at h
    by_cases hst : s.state = TOKEN_PRESENT
    · rw [if_pos hst] at h; simp at h
    · rw [if_neg hst] at h
      simp only [Option.some.injEq, Prod.mk.injEq] at h
      obtain ⟨rfl, rfl⟩ := h
      exact ⟨Or.inr ⟨rfl, hst⟩, rfl, rfl, rfl, by simp⟩
  | succ fuel ih =>
    intro cur s s' tr h
    rw [destroy_loop] at h
    by_cases hst : s.state = TOKEN_PRESENT
    · rw [if_pos hst] at h
      rcases hmap : destroy_loop pids sendOk fuel
          (if cur + 1 = pids.length then 0 else cur + 1)
          (if sendOk fuel then { s with state := NO_TOKEN } else s)
        with _ | ⟨s2, tr2⟩
      · rw [hmap] at h; simp at h
      · rw [hmap] at h
        simp only [Option.map_some', Option.some.injEq, Prod.mk.injEq] at h
        obtain ⟨hs', htr⟩ := h
        subst hs'; subst htr
        obtain ⟨h1, h2, h3, h4, h5⟩ := ih _ _ s2 tr2 hmap
        by_cases hok : sendOk fuel
        · rw [if_pos hok] at h1 h2 h3 h4 h5
          refine ⟨?_, h2, h3, h4, ?_⟩
          · rcases h1 with h1 | h1
            · exact Or.inl h1
            · exact Or.inl h1.1
          · intro e he
            rcases List.mem_cons.mp he with rfl | he
            · rfl
            · exact h5 e he
        · rw [if_neg hok] at h1 h2 h3 h4 h5
          refine ⟨?_, h2, h3, h4, ?_⟩
          · rcases h1 with h1 | h1
            · exact Or.inl h1
            · exact absurd hst h1.2
          · intro e he
            rcases List.mem_cons.mp he with rfl | he
            · rfl
            · exact h5 e he
    · rw [if_neg hst] at h
      simp only [Option.some.injEq, Prod.mk.injEq] at h
      obtain ⟨rfl, rfl⟩ := h
      exact ⟨Or.inr ⟨rfl, hst⟩, rfl, rfl, rfl, by simp⟩

theorem release_single_self (owner : Nat) (sendOk : Nat → Bool)
    (s : LockState) (hs : s.state ≠ NO_TOKEN) :
    release owner [owner] sendOk s
      = some ({ s with state := TOKEN_PRESENT }, [], none) := by
  unfold release
  rw [if_neg hs, if_pos (List.mem_singleton_self owner)]
  have hc : candidates owner [owner] = [] := by
    simp [candidates, idxOf]
  rw [hc]
  rfl

/-! ## C6: clock monotonicity -/

/-- **C6 (amended).**  The clock is non-decreasing across every embedded
operation (the request broadcast of `acquire`, `release`, the
`request_token` handler, `obtain_token`, `destroy`), and it strictly
increases across every send attempted by `acquire`'s broadcast and by
`release`'s hand-off scan: the clocks carried by those traces form a
strictly increasing chain above the entry clock.  The sends of
`destroy`'s hand-off loop however do NOT increase the clock: they all
carry the entry clock unchanged — this is the amendment. -/
theorem claim_clock_monotonic :
    (∀ owner pids t, t ≤ (acquire_requests owner pids t).1
        ∧ List.Chain' (· < ·)
            (t :: (acquire_requests owner pids t).2.map Prod.snd))
    ∧ (∀ owner pids sendOk s s' tr rcv,
        release owner pids sendOk s = some (s', tr, rcv) →
          s.time ≤ s'.time
          ∧ List.Chain' (· < ·) (s.time :: tr.map Prod.snd))
    ∧ (∀ time pid s, s.time ≤ (request_token time pid s).time)
    ∧ (∀ owner payload s s', obtain_token owner payload s = some s' →
        s.time ≤ s'.time)
    ∧ (∀ pids sendOk fuel cur s s' tr,
        destroy_loop pids sendOk fuel cur s = some (s', tr) →
          s'.time = s.time ∧ ∀ e ∈ tr, e.2 = s.time)
    ∧ (∀ owner pids sendOkR sendOkD fuel s s' tr,
        destroy owner pids sendOkR sendOkD fuel s = some (s', tr) →
          s.time ≤ s'.time) := by
  refine ⟨fun owner pids t => acquire_requests_clock owner pids t,
    fun owner pids sendOk s s' tr rcv h =>
      ⟨(release_facts owner pids sendOk s s' tr rcv h).2.2.2.1,
       (release_facts owner pids sendOk s s' tr rcv h).2.2.2.2⟩,
    fun time pid s => ?_,
    fun owner payload s s' h => (obtain_token_facts owner payload s s' h).2.2.2,
    fun pids sendOk fuel cur s s' tr h =>
      ⟨(destroy_loop_facts pids sendOk fuel cur s s' tr h).2.1,
       (destroy_loop_facts pids sendOk fuel cur s s' tr h).2.2.2.2⟩,
    ?_⟩
  · show s.time ≤ max time (s.time + 1)
    exact le_trans (Nat.le_succ _) (Nat.le_max_right _ _)
  · intro owner pids sendOkR sendOkD fuel s s' tr h
    unfold destroy at h
    rcases hrel : (if s.state = TOKEN_HELD then release owner pids sendOkR s
        else some (s, [], none)) with _ | ⟨s1, tr1, rcv1⟩
    · rw [hrel] at h; simp at h
    · simp only [hrel] at h
      have htime1 : s.time ≤ s1.time := by
        by_cases hheld : s.state = TOKEN_HELD
        · rw [if_pos hheld] at hrel
          exact (release_facts owner pids sendOkR s s1 tr1 rcv1 hrel).2.2.2.1
        · rw [if_neg hheld] at hrel
          simp only [Option.some.injEq, Prod.mk.injEq] at hrel
          rw [hrel.1]
      by_cases hlen : pids.length = 1
      · rw [if_pos hlen] at h
        simp only [Option.some.injEq, Prod.mk.injEq] at h
        rw [← h.1]
        exact htime1
      · rw [if_neg hlen] at h
        by_cases howner : owner ∈ pids
        · rw [if_pos howner] at h
          obtain ⟨⟨s2, tr2⟩, hloop, heq⟩ := Option.map_eq_some'.mp h
          simp only [Prod.mk.injEq] at heq
          have ht2 := (destroy_loop_facts pids sendOkD fuel
            (idxOf pids owner) s1 s2 tr2 hloop).2.1
          rw [← heq.1, ht2]
          exact htime1
        · rw [if_neg howner] at h; simp at h

/-- Witness for C6 at a concrete `release` hand-off: entry clock 5, one
send at clock 6. -/
theorem claim_clock_monotonic_witness :
    (5 : Nat) ≤ 6 ∧ List.Chain' (· < ·) [5, 6] :=
  claim_clock_monotonic.2.1 1 [1, 2, 3] (fun _ => true)
    { time := 5, token := [(1, 0), (2, 0), (3, 0)],
      request := [(2, 7), (3, 7)], state := TOKEN_HELD }
    { time := 6, token := [(1, 5), (2, 6), (3, 0)],
      request := [(2, 7), (3, 7)], state := NO_TOKEN }
    [(2, 6)] (some 2) (by decide)

/-- **C6 counterexample.**  `destroy` on a 2-peer system from
`TOKEN_PRESENT` at clock 5 sends `obtain_token` to peer 2 with the clock
still 5 and returns with the clock still 5: the clock does not strictly
increase across `destroy`'s send. -/
theorem claim_clock_monotonic_cex :
    destroy 1 [1, 2] (fun _ => true) (fun _ => true) 3
        { time := 5, token := [(1, 0), (2, 0)], request := [],
          state := TOKEN_PRESENT }
      = some ({ time := 5, token := [(1, 0), (2, 0)], request := [],
                state := NO_TOKEN }, [(2, 5)])
    ∧ ¬ (5 : Nat) < 5 := by decide

/-! ## C7: final state of `destroy` -/

/-- **C7 (amended).**  When `destroy` returns on a directory with more
than one peer, the departing peer's state is `NO_TOKEN`.  On a
single-peer directory, however, `destroy` returns early with no send
attempted and the state left by the release phase: `NO_TOKEN` only when
the peer had no token, and `TOKEN_PRESENT` — not the claimed `NO_TOKEN` —
when the token was present or held. -/
theorem claim_destroy_final_state (owner : Nat) (pids : List Nat)
    (sendOkR sendOkD : Nat → Bool) (fuel : Nat) (s s' : LockState)
    (tr : List (Nat × Nat))
    (hs3 : s.state = NO_TOKEN ∨ s.state = TOKEN_PRESENT
      ∨ s.state = TOKEN_HELD)
    (h : destroy owner pids sendOkR sendOkD fuel s = some (s', tr)) :
    (pids.length ≠ 1 → s'.state = NO_TOKEN)
    ∧ (pids.length = 1 → tr = []
        ∧ s'.state = (if s.state = NO_TOKEN then NO_TOKEN
            else TOKEN_PRESENT)) := by
  unfold destroy at h
  rcases hrel : (if s.state = TOKEN_HELD then release owner pids sendOkR s
      else some (s, [], none)) with _ | ⟨s1, tr1, rcv1⟩
  · rw [hrel] at h; simp at h
  · simp only [hrel] at h
    have hs1 : s1.state = NO_TOKEN ∨ s1.state = TOKEN_PRESENT := by
      by_cases hheld : s.state = TOKEN_HELD
      · rw [if_pos hheld] at hrel
        have hf := release_facts owner pids sendOkR s s1 tr1 rcv1 hrel
        cases hrcv : rcv1 with
        | none =>
          rcases hf.1 hrcv with ⟨-, hno⟩ | ⟨hp, -⟩
          · rw [hheld] at hno
            exact absurd hno (by simp [NO_TOKEN, TOKEN_HELD])
          · exact Or.inr hp
        | some q => exact Or.inl (hf.2.1 q hrcv).1
      · rw [if_neg hheld] at hrel
        simp only [Option.some.injEq, Prod.mk.injEq] at hrel
        rw [← hrel.1]
        rcases hs3 with hh | hh | hh
        · exact Or.inl hh
        · exact Or.inr hh
        · exact absurd hh hheld
    constructor
    · intro hlen
      rw [if_neg hlen] at h
      by_cases howner : owner ∈ pids
      · rw [if_pos howner] at h
        obtain ⟨⟨s2, tr2⟩, hloop, heq⟩ := Option.map_eq_some'.mp h
        simp only [Prod.mk.injEq] at heq
        rw [← heq.1]
        rcases (destroy_loop_facts pids sendOkD fuel
            (idxOf pids owner) s1 s2 tr2 hloop).1 with hh | ⟨hh, hnp⟩
        · exact hh
        · rcases hs1 with h2 | h2
          · rw [hh, h2]
          · exact absurd h2 hnp
      · rw [if_neg howner] at h; simp at h
    · intro hlen
      rw [if_pos hlen] at h
      simp only [Option.some.injEq, Prod.mk.injEq] at h
      by_cases hheld : s.state = TOKEN_HELD
      · rw [if_pos hheld] at hrel
        have hown : owner ∈ pids := by
          by_contra hno
          unfold release at hrel
          rw [if_neg (by rw [hheld]; simp [TOKEN_HELD, NO_TOKEN]),
            if_neg hno] at hrel
          simp at hrel
        obtain ⟨x, hx⟩ : ∃ x, pids = [x] := by
          cases pids with
          | nil => simp at hlen
          | cons a l =>
            cases l with
            | nil => exact ⟨a, rfl⟩
            | cons b l2 => simp at hlen
        have hxo : x = owner := by
          rw [hx] at hown
          exact (List.mem_singleton.mp hown).symm
        rw [hxo] at hx
        rw [hx, release_single_self owner sendOkR s
          (by rw [hheld]; simp [TOKEN_HELD, NO_TOKEN])] at hrel
        simp only [Option.some.injEq, Prod.mk.injEq] at hrel
        constructor
        · rw [← h.2, ← hrel.2.1]
        · rw [← h.1, ← hrel.1,
            if_neg (by rw [hheld]; simp [TOKEN_HELD, NO_TOKEN])]
      · rw [if_neg hheld] at hrel
        simp only [Option.some.injEq, Prod.mk.injEq] at hrel
        constructor
        · rw [← h.2, ← hrel.2.1]
        · rw [← h.1, ← hrel.1]
          rcases hs3 with hh | hh | hh
          · rw [if_pos hh]; exact hh
          · rw [if_neg (by rw [hh]; simp [TOKEN_PRESENT, NO_TOKEN])]
            exact hh
          · exact absurd hh hheld

/-- Witness for C7: a 2-peer `destroy` from `TOKEN_PRESENT` ends in
`NO_TOKEN`. -/
theorem claim_destroy_final_state_witness :
    ({ time := 5, token := [(1, 0), (2, 0)], request := [],
        state := NO_TOKEN } : LockState).state = NO_TOKEN :=
  (claim_destroy_final_state 1 [1, 2] (fun _ => true) (fun _ => true) 3
      { time := 5, token := [(1, 0), (2, 0)], request := [],
        state := TOKEN_PRESENT }
      { time := 5, token := [(1, 0), (2, 0)], request := [],
        state := NO_TOKEN }
      [(2, 5)] (Or.inr (Or.inl rfl)) (by decide)).1 (by decide)

/-- **C7 counterexample.**  A single-peer `destroy` from `TOKEN_PRESENT`
returns with the state still `TOKEN_PRESENT`, not `NO_TOKEN`: the early
return for a one-element directory never resets the state. -/
theorem claim_destroy_single_peer_cex :
    destroy 1 [1] (fun _ => true) (fun _ => true) 1
        { time := 0, token := [(1, 0)], request := [],
          state := TOKEN_PRESENT }
      = some ({ time := 0, token := [(1, 0)], request := [],
                state := TOKEN_PRESENT }, [])
    ∧ TOKEN_PRESENT ≠ NO_TOKEN := by decide

/-! ## C1: mutual exclusion is violated in the hand-off window -/

/-- The lock state of peer 1 produced by its `release` scan in the
violation schedule below: token stamped, clock advanced, receiver 2
chosen. -/
def mutexPs : LockState :=
  { time := 2, token := [(1, 1), (2, 2)], request := [(2, 1)],
    state := NO_TOKEN }

/-- The lock state of peer 2 after its `obtain_token` handler in the
violation schedule below. -/
def mutexQs : LockState :=
  { time := 2, token := [(1, 1), (2, 2)], request := [],
    state := TOKEN_PRESENT }

/-- Step 1 of the violation schedule: from the freshly initialised
2-peer system, peer 2 sends `request_token` to peer 1 (the initial
holder). -/
def mutexSys1 : Sys :=
  updLocks
    (updLocks (initSys [1, 2]) 2
      { (initSys [1, 2]).locks 2 with
          time := ((initSys [1, 2]).locks 2).time + 1 })
    1 (request_token (((initSys [1, 2]).locks 2).time + 1) 2
        ((initSys [1, 2]).locks 1))

/-- Step 2: peer 1's `release` (run by the `request_token` RPC worker)
chooses peer 2 and blocks in the `obtain_token` send; peer 2's handler
completes, while peer 1 still shows `TOKEN_PRESENT` because the
post-reply `state = NO_TOKEN` has not run yet. -/
def mutexSys2 : Sys :=
  setSending
    (updLocks (updLocks mutexSys1 1 { mutexPs with state := TOKEN_PRESENT })
      2 mutexQs) 1 true

/-- Step 3: peer 1's own lock-free `acquire` reads `TOKEN_PRESENT` and
sets `TOKEN_HELD`, inside the hand-off window. -/
def mutexSys3 : Sys :=
  updLocks mutexSys2 1 (setState (mutexSys2.locks 1) TOKEN_HELD)

/-- Step 4: peer 2's waiting `acquire` completes too: both peers are now
`TOKEN_HELD`. -/
def mutexSys4 : Sys :=
  updLocks mutexSys3 2 (setState (mutexSys3.locks 2) TOKEN_HELD)

/-- **C1 (violated by the code).**  The configuration `mutexSys4`, in
which peers 1 and 2 simultaneously have `state = TOKEN_HELD`, is
reachable from the initialised 2-peer system: peer 2 requests the token;
peer 1's release blocks in the `obtain_token` send after peer 2's
handler has made the token present there; and during that window both
peers' lock-free `acquire` tails fire.  Hence the claim — no two peers
simultaneously `TOKEN_HELD` in any reachable configuration — is false of
the program. -/
theorem claim_mutual_exclusion_violation :
    Reachable [1, 2] mutexSys4
    ∧ (mutexSys4.locks 1).state = TOKEN_HELD
    ∧ (mutexSys4.locks 2).state = TOKEN_HELD
    ∧ ¬ (∀ σ, Reachable [1, 2] σ → ∀ p q,
          (σ.locks p).state = TOKEN_HELD → (σ.locks q).state = TOKEN_HELD →
          p = q) := by
  have h1 : Step [1, 2] (initSys [1, 2]) mutexSys1 :=
    Step.reqSend (initSys [1, 2]) 2 1 (by decide) (by decide) (by decide)
      (by decide) (by decide)
  have h2 : Step [1, 2] mutexSys1 mutexSys2 :=
    Step.handoffSend mutexSys1 1 2 mutexPs [(2, 2)] mutexQs (fun _ => true)
      (by decide) (by decide) (by decide) (by decide) (by decide)
  have h3 : Step [1, 2] mutexSys2 mutexSys3 :=
    Step.acquireDone mutexSys2 1 (by decide) (by decide)
  have h4 : Step [1, 2] mutexSys3 mutexSys4 :=
    Step.acquireDone mutexSys3 2 (by decide) (by decide)
  have hreach : Reachable [1, 2] mutexSys4 :=
    Relation.ReflTransGen.tail
      (Relation.ReflTransGen.tail
        (Relation.ReflTransGen.tail (Relation.ReflTransGen.single h1) h2)
        h3)
      h4
  refine ⟨hreach, by decide, by decide, fun hclaim => ?_⟩
  exact absurd (hclaim mutexSys4 hreach 1 2 (by decide) (by decide))
    (by decide)

end Distr

